import Mathlib

/-!
Verification development for the decomp-toolkit ELF codec core.

The definitions below are shallow embeddings of the Rust sources:
- `src/util/elf.rs` (`process_elf`, `write_elf`, `to_obj_reloc`,
  `write_relocatable_section_data`)
- `src/obj/splits.rs` (`ObjSplits::for_address`)

Machine integers are modelled as `Nat` (with explicit bounds where
overflow or bit width matters); fallible Rust code returning
`anyhow::Result` is modelled with `Except String`; Rust panics
(out-of-bounds slicing) are modelled as failures as well.
-/

/-- Relocation kinds, mirroring `ObjRelocKind` in `src/obj` (the closed
enumeration used throughout `src/util/elf.rs`). -/
inductive ObjRelocKind
  | Absolute
  | PpcAddr16Lo
  | PpcAddr16Hi
  | PpcAddr16Ha
  | PpcRel24
  | PpcRel14
  | PpcEmbSda21
  deriving DecidableEq, BEq

/-- ELF relocation type code `R_PPC_ADDR32`. -/
def R_PPC_ADDR32 : Nat := 1

/-- ELF relocation type code `R_PPC_ADDR16_LO`. -/
def R_PPC_ADDR16_LO : Nat := 4

/-- ELF relocation type code `R_PPC_ADDR16_HI`. -/
def R_PPC_ADDR16_HI : Nat := 5

/-- ELF relocation type code `R_PPC_ADDR16_HA`. -/
def R_PPC_ADDR16_HA : Nat := 6

/-- ELF relocation type code `R_PPC_REL24`. -/
def R_PPC_REL24 : Nat := 10

/-- ELF relocation type code `R_PPC_REL14`. -/
def R_PPC_REL14 : Nat := 11

/-- ELF relocation type code `R_PPC_UADDR32`. -/
def R_PPC_UADDR32 : Nat := 24

/-- ELF relocation type code `R_PPC_EMB_SDA21`. -/
def R_PPC_EMB_SDA21 : Nat := 109

/-- Embeds the relocation record computation of `write_elf`
(`src/util/elf.rs` lines 648-686): from the model relocation kind and the
in-section relocation address (a `u32` widened to `u64`; here a `Nat`
below `2 ^ 32`), compute the emitted `r_offset` and `r_type`.  The source
writes `r_offset &= !3` on `u64`, i.e. a bitwise AND with
`0xFFFFFFFFFFFFFFFC`. -/
def relocEntry (kind : ObjRelocKind) (relocAddress : Nat) : Nat × Nat :=
  match kind with
  | .Absolute =>
    (relocAddress, if relocAddress &&& 3 = 0 then R_PPC_ADDR32 else R_PPC_UADDR32)
  | .PpcAddr16Hi => ((relocAddress &&& 0xFFFFFFFFFFFFFFFC) + 2, R_PPC_ADDR16_HI)
  | .PpcAddr16Ha => ((relocAddress &&& 0xFFFFFFFFFFFFFFFC) + 2, R_PPC_ADDR16_HA)
  | .PpcAddr16Lo => ((relocAddress &&& 0xFFFFFFFFFFFFFFFC) + 2, R_PPC_ADDR16_LO)
  | .PpcRel24 => (relocAddress &&& 0xFFFFFFFFFFFFFFFC, R_PPC_REL24)
  | .PpcRel14 => (relocAddress &&& 0xFFFFFFFFFFFFFFFC, R_PPC_REL14)
  | .PpcEmbSda21 => (relocAddress &&& 0xFFFFFFFFFFFFFFFC, R_PPC_EMB_SDA21)

/-- Embeds the pre-emission masking of `write_relocatable_section_data`
(`src/util/elf.rs` lines 892-908): the relocated instruction word `ins`
(a `u32`; here a `Nat` below `2 ^ 32`) is masked per relocation kind.
The source writes `ins &= !MASK` on `u32`; the `u32` complement of `MASK`
is `0xFFFFFFFF ^^^ MASK`. -/
def zeroRelocWord (kind : ObjRelocKind) (ins : Nat) : Nat :=
  match kind with
  | .Absolute => 0
  | .PpcAddr16Hi | .PpcAddr16Ha | .PpcAddr16Lo => ins &&& (0xFFFFFFFF ^^^ 0xFFFF)
  | .PpcRel24 => ins &&& (0xFFFFFFFF ^^^ 0x3FFFFFC)
  | .PpcRel14 => ins &&& (0xFFFFFFFF ^^^ 0xFFFC)
  | .PpcEmbSda21 => ins &&& (0xFFFFFFFF ^^^ 0x1FFFFF)

/-- The bit field each relocation kind occupies, as described by the
specification: `Absolute` covers the whole 32-bit word, the three
`Addr16` kinds the low 16 bits, `Rel24` the 24-bit branch displacement
field, `Rel14` the 14-bit field, `EmbSda21` the 21-bit field. -/
def relocMaskField (kind : ObjRelocKind) : Nat :=
  match kind with
  | .Absolute => 0xFFFFFFFF
  | .PpcAddr16Hi | .PpcAddr16Ha | .PpcAddr16Lo => 0xFFFF
  | .PpcRel24 => 0x3FFFFFC
  | .PpcRel14 => 0xFFFC
  | .PpcEmbSda21 => 0x1FFFFF

lemma testBit_not3 (i : Nat) :
    Nat.testBit 0xFFFFFFFFFFFFFFFC i = (decide (2 ≤ i) && decide (i < 64)) := by
  have hc : (0xFFFFFFFFFFFFFFFC : Nat) = (2 ^ 62 - 1) <<< 2 := by decide
  rw [hc, Nat.testBit_shiftLeft, Nat.testBit_two_pow_sub_one]
  rcases Nat.lt_or_ge i 2 with h2 | h2
  · simp [Nat.not_le.mpr h2]
  · simp [h2, show i - 2 < 62 ↔ i < 64 by omega]

lemma land_not3_eq (a : Nat) (h : a < 2 ^ 32) :
    a &&& 0xFFFFFFFFFFFFFFFC = 4 * (a / 4) := by
  have h4 : 4 * (a / 4) = (a >>> 2) <<< 2 := by
    rw [Nat.shiftRight_eq_div_pow, Nat.shiftLeft_eq]
    norm_num [Nat.mul_comm]
  rw [h4]
  apply Nat.eq_of_testBit_eq
  intro i
  rw [Nat.testBit_and, testBit_not3, Nat.testBit_shiftLeft, Nat.testBit_shiftRight]
  rcases Nat.lt_or_ge i 2 with h2 | h2
  · simp [Nat.not_le.mpr h2]
  · rcases Nat.lt_or_ge i 64 with h64 | h64
    · simp [h2, h64, Nat.add_sub_cancel' h2]
    · have hbit : a.testBit i = false :=
        Nat.testBit_lt_two_pow
          (Nat.lt_of_lt_of_le h (Nat.pow_le_pow_right (by norm_num) (by omega)))
      simp [h2, hbit, Nat.not_lt.mpr h64, Nat.add_sub_cancel' h2]

lemma land_land_zero (A F ins : Nat) (hAF : A &&& F = 0) :
    (ins &&& A) &&& F = 0 := by
  rw [Nat.and_assoc, hAF, Nat.and_zero]

lemma zeroRelocWord_land_field (kind : ObjRelocKind) (ins : Nat) :
    zeroRelocWord kind ins &&& relocMaskField kind = 0 := by
  cases kind
  case Absolute => simp [zeroRelocWord, relocMaskField]
  case PpcAddr16Lo => exact land_land_zero _ _ _ (by decide)
  case PpcAddr16Hi => exact land_land_zero _ _ _ (by decide)
  case PpcAddr16Ha => exact land_land_zero _ _ _ (by decide)
  case PpcRel24 => exact land_land_zero _ _ _ (by decide)
  case PpcRel14 => exact land_land_zero _ _ _ (by decide)
  case PpcEmbSda21 => exact land_land_zero _ _ _ (by decide)

lemma land_mask_preserves (A F ins i : Nat) (h : ins < 2 ^ 32)
    (hall : ∀ j, j < 32 → F.testBit j = false → A.testBit j = true)
    (hi : F.testBit i = false) :
    (ins &&& A).testBit i = ins.testBit i := by
  rcases Nat.lt_or_ge i 32 with h32 | h32
  · rw [Nat.testBit_and, hall i h32 hi, Bool.and_true]
  · have hbit : ins.testBit i = false :=
      Nat.testBit_lt_two_pow
        (Nat.lt_of_lt_of_le h (Nat.pow_le_pow_right (by norm_num) h32))
    rw [Nat.testBit_and, hbit, Bool.false_and]

lemma zeroRelocWord_preserves (kind : ObjRelocKind) (ins : Nat) (h : ins < 2 ^ 32)
    (i : Nat) (hi : (relocMaskField kind).testBit i = false) :
    (zeroRelocWord kind ins).testBit i = ins.testBit i := by
  cases kind
  case Absolute =>
    have h32 : 32 ≤ i := by
      by_contra hlt
      have hall : ∀ j, j < 32 → Nat.testBit 0xFFFFFFFF j = true := by decide
      exact absurd (hall i (Nat.not_le.mp hlt)) (by
        simp only [relocMaskField] at hi
        simp [hi])
    have hbit : ins.testBit i = false :=
      Nat.testBit_lt_two_pow
        (Nat.lt_of_lt_of_le h (Nat.pow_le_pow_right (by norm_num) h32))
    simp [zeroRelocWord, hbit]
  case PpcAddr16Lo => exact land_mask_preserves _ _ _ _ h (by decide) hi
  case PpcAddr16Hi => exact land_mask_preserves _ _ _ _ h (by decide) hi
  case PpcAddr16Ha => exact land_mask_preserves _ _ _ _ h (by decide) hi
  case PpcRel24 => exact land_mask_preserves _ _ _ _ h (by decide) hi
  case PpcRel14 => exact land_mask_preserves _ _ _ _ h (by decide) hi
  case PpcEmbSda21 => exact land_mask_preserves _ _ _ _ h (by decide) hi

/-- C4: for every relocation kind and every 32-bit instruction word, the
masking performed by `write_relocatable_section_data` clears exactly that
kind's bit field (the masked word is zero on the field) and preserves
every bit outside the field. -/
theorem c4_zeroRelocWord_clears_exactly_field (kind : ObjRelocKind) (ins : Nat)
    (h : ins < 2 ^ 32) :
    zeroRelocWord kind ins &&& relocMaskField kind = 0 ∧
    ∀ i, (relocMaskField kind).testBit i = false →
      (zeroRelocWord kind ins).testBit i = ins.testBit i :=
  ⟨zeroRelocWord_land_field kind ins, fun i hi => zeroRelocWord_preserves kind ins h i hi⟩

/-- C4 witness: the masking property evaluated at the `Rel24` kind on the
all-ones instruction word, with bit 31 as the preserved sample bit. -/
theorem c4_witness :
    zeroRelocWord ObjRelocKind.PpcRel24 0xFFFFFFFF &&&
        relocMaskField ObjRelocKind.PpcRel24 = 0 ∧
    (zeroRelocWord ObjRelocKind.PpcRel24 0xFFFFFFFF).testBit 31 =
        (0xFFFFFFFF : Nat).testBit 31 :=
  ⟨(c4_zeroRelocWord_clears_exactly_field ObjRelocKind.PpcRel24 0xFFFFFFFF
      (by norm_num)).1,
   (c4_zeroRelocWord_clears_exactly_field ObjRelocKind.PpcRel24 0xFFFFFFFF
      (by norm_num)).2 31 (by decide)⟩

/-- C3 (amended): the emitted `r_offset` equals the relocation address
rounded down to a multiple of 4 for `Rel24`, `Rel14` and `EmbSda21`,
rounded down plus 2 for the three `Addr16` kinds, and the unmodified
address for `Absolute`. -/
theorem c3_relocEntry_offset (kind : ObjRelocKind) (addr : Nat) (h : addr < 2 ^ 32) :
    (relocEntry kind addr).1 =
      match kind with
      | .Absolute => addr
      | .PpcAddr16Hi | .PpcAddr16Ha | .PpcAddr16Lo => 4 * (addr / 4) + 2
      | .PpcRel24 | .PpcRel14 | .PpcEmbSda21 => 4 * (addr / 4) := by
  cases kind <;> simp [relocEntry, land_not3_eq addr h]

/-- C3 counterexample: an `Absolute` relocation at the unaligned address 2
is emitted with `r_offset = 2`, not the word-aligned offset 0 the claim
asserts for every kind outside the three `Addr16` kinds. -/
theorem c3_counterexample :
    (relocEntry ObjRelocKind.Absolute 2).1 = 2 ∧
    (relocEntry ObjRelocKind.Absolute 2).1 ≠ 4 * (2 / 4) := by
  constructor
  · rfl
  · decide

/-- C3 witness: the amended offset rule evaluated at a `Rel24` relocation
at address 6. -/
theorem c3_witness : (relocEntry ObjRelocKind.PpcRel24 6).1 = 4 * (6 / 4) :=
  c3_relocEntry_offset ObjRelocKind.PpcRel24 6 (by norm_num)

/-- Marks a split point within a section, mirroring `ObjSplit` in
`src/obj/splits.rs`.  The Rust field `end` is named `endAddr` here because
`end` is a Lean keyword; `end == 0` means the split is open-ended. -/
structure ObjSplit where
  unit : String
  endAddr : Nat
  align : Option Nat
  common : Bool
  autogenerated : Bool
  skip : Bool
  rename : Option String
  deriving DecidableEq

/-- All `(start, split)` pairs of a split map, in map order.  The
`BTreeMap<u32, Vec<ObjSplit>>` of `ObjSplits` is modelled as an
association list whose keys are in strictly increasing order (the
`BTreeMap` iteration invariant); this is the flattening performed by
`ObjSplits::iter` and `ObjSplits::for_range`. -/
def flatSplits (m : List (Nat × List ObjSplit)) : List (Nat × ObjSplit) :=
  m.flatMap (fun p => p.2.map (fun u => (p.1, u)))

/-- Embeds `ObjSplits::for_range(..=address)` as used by `for_address`:
all `(start, split)` pairs with `start ≤ address`, in map order. -/
def for_range_to (m : List (Nat × List ObjSplit)) (address : Nat) :
    List (Nat × ObjSplit) :=
  flatSplits (m.filter (fun p => decide (p.1 ≤ address)))

/-- Embeds `ObjSplits::for_address` (`src/obj/splits.rs` lines 69-74):
take the last element of `for_range(..=address)` and keep it only if its
range contains `address` (open end `0` counts as containing). -/
def for_address (m : List (Nat × List ObjSplit)) (address : Nat) :
    Option (Nat × ObjSplit) :=
  match (for_range_to m address).getLast? with
  | some (addr, split) =>
    if split.endAddr = 0 ∨ split.endAddr > address then some (addr, split) else none
  | none => none

lemma mem_flatSplits (m : List (Nat × List ObjSplit)) (t : Nat) (u : ObjSplit) :
    (t, u) ∈ flatSplits m ↔ ∃ v, (t, v) ∈ m ∧ u ∈ v := by
  simp only [flatSplits, List.mem_flatMap, List.mem_map]
  constructor
  · rintro ⟨⟨k, v⟩, hmem, u', hu', heq⟩
    obtain ⟨h1, h2⟩ := Prod.mk.injEq .. ▸ heq
    exact ⟨v, by simpa [← h1] using hmem, by simpa [h2] using hu'⟩
  · rintro ⟨v, hmem, hu⟩
    exact ⟨(t, v), hmem, u, hu, rfl⟩

lemma mem_for_range_to (m : List (Nat × List ObjSplit)) (a t : Nat) (u : ObjSplit) :
    (t, u) ∈ for_range_to m a ↔ (t, u) ∈ flatSplits m ∧ t ≤ a := by
  simp only [for_range_to, mem_flatSplits, List.mem_filter, decide_eq_true_eq]
  constructor
  · rintro ⟨v, ⟨hmem, hle⟩, hu⟩
    exact ⟨⟨v, hmem, hu⟩, hle⟩
  · rintro ⟨⟨v, hmem, hu⟩, hle⟩
    exact ⟨v, ⟨hmem, hle⟩, hu⟩

lemma pairwise_map_const_key (k : Nat) (v : List ObjSplit) :
    (v.map (fun u => (k, u))).Pairwise
      (fun p q : Nat × ObjSplit => p.1 ≤ q.1) := by
  induction v with
  | nil => exact List.Pairwise.nil
  | cons x xs ih =>
    refine List.Pairwise.cons ?_ ih
    intro b hb
    obtain ⟨u, _, heq⟩ := List.mem_map.mp hb
    simp [← heq]

lemma flatSplits_pairwise (m : List (Nat × List ObjSplit))
    (hs : (m.map Prod.fst).Pairwise (· < ·)) :
    (flatSplits m).Pairwise (fun p q : Nat × ObjSplit => p.1 ≤ q.1) := by
  induction m with
  | nil => exact List.Pairwise.nil
  | cons kv rest ih =>
    obtain ⟨k, v⟩ := kv
    have hs' : (rest.map Prod.fst).Pairwise (· < ·) := (List.pairwise_cons.mp hs).2
    have hlt : ∀ k2 ∈ rest.map Prod.fst, k < k2 := (List.pairwise_cons.mp hs).1
    show ((v.map (fun u => (k, u))) ++ flatSplits rest).Pairwise _
    rw [List.pairwise_append]
    refine ⟨pairwise_map_const_key k v, ih hs', ?_⟩
    intro p hp q hq
    obtain ⟨u, _, heqp⟩ := List.mem_map.mp hp
    have hq1 : q.1 ∈ rest.map Prod.fst := by
      obtain ⟨t, w⟩ := q
      obtain ⟨v', hv', _⟩ := (mem_flatSplits rest t w).mp hq
      exact List.mem_map.mpr ⟨(t, v'), hv', rfl⟩
    have : k < q.1 := hlt q.1 hq1
    simp [← heqp]
    omega

lemma pairwise_le_getLast (l : List (Nat × ObjSplit))
    (hp : l.Pairwise (fun p q : Nat × ObjSplit => p.1 ≤ q.1))
    (b : Nat × ObjSplit) (hb : l.getLast? = some b) :
    ∀ x ∈ l, x.1 ≤ b.1 := by
  induction l with
  | nil => intro x hx; cases hx
  | cons a t ih =>
    cases t with
    | nil =>
      intro x hx
      have hba : b = a := by simpa using hb.symm
      have hxa : x = a := by simpa using hx
      simp [hba, hxa]
    | cons c t2 =>
      intro x hx
      have hb' : (c :: t2).getLast? = some b := by
        simpa using hb
      have hbmem : b ∈ c :: t2 := List.mem_of_getLast?_eq_some hb'
      rcases List.mem_cons.mp hx with hxa | hxt
      · have := (List.pairwise_cons.mp hp).1 b hbmem
        simpa [hxa] using this
      · exact ih (List.pairwise_cons.mp hp).2 hb' x hxt

/-- C2 (amended): `for_address(a)` inspects only the last split in map
order among those with start at most `a`; it returns Some iff that last
split exists and its range contains `a` (open end `0` counts).  When it
returns Some, the returned split qualifies and its start is the greatest
among all qualifying splits in the index. -/
theorem c2_for_address_spec (m : List (Nat × List ObjSplit)) (a : Nat)
    (hs : (m.map Prod.fst).Pairwise (· < ·)) :
    (∀ s sp, for_address m a = some (s, sp) →
      (s, sp) ∈ flatSplits m ∧ s ≤ a ∧ (sp.endAddr = 0 ∨ a < sp.endAddr) ∧
      ∀ t u, (t, u) ∈ flatSplits m → t ≤ a →
        (u.endAddr = 0 ∨ a < u.endAddr) → t ≤ s) ∧
    ((for_address m a).isSome ↔
      ∃ s sp, (for_range_to m a).getLast? = some (s, sp) ∧
        (sp.endAddr = 0 ∨ a < sp.endAddr)) := by
  have hpair : (for_range_to m a).Pairwise (fun p q : Nat × ObjSplit => p.1 ≤ q.1) := by
    apply flatSplits_pairwise
    exact List.Pairwise.sublist (List.Sublist.map Prod.fst (List.filter_sublist m)) hs
  rcases hlast : (for_range_to m a).getLast? with _ | ⟨s0, sp0⟩
  · have hfa : for_address m a = none := by
      simp [for_address, hlast]
    constructor
    · intro s sp heq
      rw [hfa] at heq; cases heq
    · rw [hfa]
      simp
  · have hfa : for_address m a =
        if sp0.endAddr = 0 ∨ sp0.endAddr > a then some (s0, sp0) else none := by
      simp [for_address, hlast]
    by_cases htest : sp0.endAddr = 0 ∨ sp0.endAddr > a
    · rw [if_pos htest] at hfa
      constructor
      · intro s sp heq
        rw [hfa] at heq
        rw [Option.some.injEq, Prod.mk.injEq] at heq
        obtain ⟨hss, hsp⟩ := heq
        subst hss; subst hsp
        have hmem : (s0, sp0) ∈ for_range_to m a := List.mem_of_getLast?_eq_some hlast
        have hflat := (mem_for_range_to m a s0 sp0).mp hmem
        refine ⟨hflat.1, hflat.2, ?_, ?_⟩
        · rcases htest with h0 | hgt
          · exact Or.inl h0
          · exact Or.inr hgt
        · intro t u hu hta _
          have : (t, u) ∈ for_range_to m a := (mem_for_range_to m a t u).mpr ⟨hu, hta⟩
          exact pairwise_le_getLast _ hpair (s0, sp0) hlast (t, u) this
      · rw [hfa]
        simp only [Option.isSome_some, true_iff]
        refine ⟨s0, sp0, rfl, ?_⟩
        rcases htest with h0 | hgt
        · exact Or.inl h0
        · exact Or.inr hgt
    · rw [if_neg htest] at hfa
      constructor
      · intro s sp heq
        rw [hfa] at heq; cases heq
      · rw [hfa]
        simp only [Option.isSome_none, false_iff, Bool.false_eq_true]
        rintro ⟨s, sp, heq, hq⟩
        rw [Option.some.injEq, Prod.mk.injEq] at heq
        obtain ⟨h1, h2⟩ := heq
        subst h1; subst h2
        rcases hq with h0 | hgt
        · exact htest (Or.inl h0)
        · exact htest (Or.inr hgt)

/-- Example split map used by the C2 witness: an open split of unit a at
start 0 and a bounded split of unit b over addresses 4 to 7. -/
def exSplitA : ObjSplit := ⟨"a", 0, none, false, false, false, none⟩

/-- Bounded split of unit b used by the C2 witness. -/
def exSplitB : ObjSplit := ⟨"b", 8, none, false, false, false, none⟩

/-- The C2 witness split map. -/
def exM : List (Nat × List ObjSplit) := [(0, [exSplitA]), (4, [exSplitB])]

/-- C2 witness: the amended theorem evaluated on a concrete sorted split
map at address 5, including one instantiation of the maximality clause. -/
theorem c2_witness :
    (4, exSplitB) ∈ flatSplits exM ∧ 4 ≤ 5 ∧
    (exSplitB.endAddr = 0 ∨ 5 < exSplitB.endAddr) ∧ 0 ≤ 4 := by
  have h := (c2_for_address_spec exM 5 (by decide)).1 4 exSplitB (by decide)
  exact ⟨h.1, h.2.1, h.2.2.1,
    h.2.2.2 0 exSplitA (by decide) (by decide) (by decide)⟩

/-- Open split of unit a used by the C2 counterexample. -/
def cexSplitA : ObjSplit := ⟨"a", 0, none, false, false, false, none⟩

/-- Bounded split of unit b used by the C2 counterexample; its range ends
at 5. -/
def cexSplitB : ObjSplit := ⟨"b", 5, none, false, false, false, none⟩

/-- The C2 counterexample split map. -/
def cexM : List (Nat × List ObjSplit) := [(0, [cexSplitA]), (4, [cexSplitB])]

/-- C2 counterexample: at address 6 a qualifying split exists (the open
split at start 0), yet `for_address` returns None, because it only tests
the last split with start at most 6 (the one at start 4, whose range ends
at 5).  This refutes the claimed if-and-only-if. -/
theorem c2_counterexample :
    for_address cexM 6 = none ∧
    (0, cexSplitA) ∈ flatSplits cexM ∧ (0 : Nat) ≤ 6 ∧ cexSplitA.endAddr = 0 ∧
    (cexM.map Prod.fst).Pairwise (· < ·) := by
  refine ⟨by decide, by decide, by decide, by decide, by decide⟩

/-- Substring test over character lists, mirroring Rust `str::contains`
restricted to the ASCII patterns the denylist uses. -/
def subList (needle : List Char) : List Char → Bool
  | [] => needle.isEmpty
  | c :: rest => needle.isPrefixOf (c :: rest) || subList needle rest

/-- Rust `str::contains` on model strings. -/
def strContains (s pat : String) : Bool := subList pat.data s.data

/-- Rust `str::starts_with` on model strings. -/
def strStartsWith (s pat : String) : Bool := pat.data.isPrefixOf s.data

/-- Rust `str::ends_with` on model strings. -/
def strEndsWith (s pat : String) : Bool := pat.data.isSuffixOf s.data

/-- Embeds the precompiled-header denylist of `process_elf`
(`src/util/elf.rs` lines 156-163): the exact disjunction of name tests the
source applies to a FILE symbol name. -/
def isPchName (s : String) : Bool :=
  s == "Precompiled.cpp" || s == "stdafx.cpp" || strEndsWith s ".h" ||
  strStartsWith s "Pch." || strContains s "precompiled_" ||
  strContains s "Precompiled" || strContains s ".pch" || strContains s "_PCH."

/-- Lower-casing of a model string, for the case-insensitive reading. -/
def toLowerStr (s : String) : String := ⟨s.data.map Char.toLower⟩

/-- Case-insensitive substring test. -/
def strContainsCI (s pat : String) : Bool := strContains (toLowerStr s) (toLowerStr pat)

/-- Modelled from the claim wording: a FILE symbol name counts as a
precompiled-header placeholder when it equals a known placeholder
filename, or matches a header extension, or contains "precompiled" or
"pch" as a case-insensitive substring.  Used only to exhibit where this
reading and the source denylist `isPchName` disagree. -/
def claimPchName (s : String) : Bool :=
  s == "Precompiled.cpp" || s == "stdafx.cpp" || strEndsWith s ".h" ||
  strContainsCI s "precompiled" || strContainsCI s "pch"

/-- The three-state boundary scanner of `process_elf`
(`src/util/elf.rs` lines 35-42). -/
inductive BoundaryState
  | LookForFile (queue : List (Nat × String))
  | LookForSections (fileName : String)
  | FilesEnded
  deriving DecidableEq

/-- The reader state the FILE-symbol arm of `process_elf` touches:
`section_starts` (an `IndexMap`, modelled as an insertion-ordered
association list), `name_to_index` (a `HashMap`, modelled as an
association list), and the boundary scanner state. -/
structure ReaderState where
  sectionStarts : List (String × List (Nat × String))
  nameToIndex : List (String × Nat)
  boundaryState : BoundaryState
  deriving DecidableEq

/-- `HashMap` entry update: replace the value at a key or insert it. -/
def assocSet : List (String × Nat) → String → Nat → List (String × Nat)
  | [], k, v => [(k, v)]
  | (k0, v0) :: rest, k, v =>
    if k0 == k then (k0, v) :: rest else (k0, v0) :: assocSet rest k v

/-- Append entries to the vector stored at a key of `section_starts`
(the `sections.append(queue)` call of `process_elf` line 195). -/
def assocAppend : List (String × List (Nat × String)) → String →
    List (Nat × String) → List (String × List (Nat × String))
  | [], _, _ => []
  | (k0, v0) :: rest, k, extra =>
    if k0 == k then (k0, v0 ++ extra) :: rest else (k0, v0) :: assocAppend rest k extra

/-- The boundary-state transition the FILE-symbol arm performs after the
name has been resolved (`src/util/elf.rs` lines 189-204).  With a
non-empty queue the source appends the queue to the new unit entry and
stays in `LookForFile` with the queue cleared. -/
def fileBoundaryStep (ss : List (String × List (Nat × String)))
    (b : BoundaryState) (fileName : String) :
    List (String × List (Nat × String)) × BoundaryState :=
  match b with
  | .LookForFile queue =>
    if queue.isEmpty then (ss, .LookForSections fileName)
    else (assocAppend ss fileName queue, .LookForFile [])
  | .LookForSections _ => (ss, .LookForSections fileName)
  | .FilesEnded => (ss, .FilesEnded)

/-- Embeds the FILE-symbol arm of the symbol loop of `process_elf`
(`src/util/elf.rs` lines 151-204): denylist check, duplicate-name
renaming with the per-name counter, hard failure on a second collision,
then the boundary-state transition. -/
def processFileSymbol (st : ReaderState) (symName : String) :
    Except String ReaderState :=
  if isPchName symName then .ok st
  else
    match st.sectionStarts.lookup symName with
    | some _ =>
      let index := (st.nameToIndex.lookup symName).getD 0 + 1
      let nameToIndex := assocSet st.nameToIndex symName index
      let newName := symName ++ "_" ++ Nat.repr index
      match st.sectionStarts.lookup newName with
      | some _ => .error ("Duplicate filename " ++ newName)
      | none =>
        let ss := st.sectionStarts ++ [(newName, [])]
        let r := fileBoundaryStep ss st.boundaryState newName
        .ok ⟨r.1, nameToIndex, r.2⟩
    | none =>
      let ss := st.sectionStarts ++ [(symName, [])]
      let r := fileBoundaryStep ss st.boundaryState symName
      .ok ⟨r.1, st.nameToIndex, r.2⟩

/-- C5 (amended): a FILE symbol whose name matches the source denylist
(equal to Precompiled.cpp or stdafx.cpp, ending in .h, starting with
Pch., or containing precompiled_, Precompiled, .pch or _PCH.) never
creates a unit and leaves the whole reader state, in particular the
buffered queue and the current-unit state, unchanged. -/
theorem c5_pch_name_skipped (st : ReaderState) (name : String)
    (h : isPchName name = true) :
    processFileSymbol st name = .ok st := by
  simp [processFileSymbol, h]

/-- Empty reader state at the start of the symbol loop. -/
def initReaderState : ReaderState := ⟨[], [], .LookForFile []⟩

/-- C5 witness: the denylist skip evaluated on the placeholder name
stdafx.cpp from a state with a non-empty buffered queue. -/
theorem c5_witness :
    processFileSymbol ⟨[], [], .LookForFile [(4, ".text")]⟩ "stdafx.cpp" =
      .ok ⟨[], [], .LookForFile [(4, ".text")]⟩ :=
  c5_pch_name_skipped ⟨[], [], .LookForFile [(4, ".text")]⟩ "stdafx.cpp" (by decide)

/-- C5 counterexample: the name pch.c contains pch as a case-insensitive
substring, so the claim says it is discarded; the source denylist does
not match it, and processing it does create a unit and change the
boundary state. -/
theorem c5_counterexample :
    claimPchName "pch.c" = true ∧
    processFileSymbol initReaderState "pch.c" =
      .ok ⟨[("pch.c", [])], [], .LookForSections "pch.c"⟩ ∧
    (⟨[("pch.c", [])], [], .LookForSections "pch.c"⟩ : ReaderState) ≠
      initReaderState := by
  refine ⟨by decide, by rfl, by decide⟩

lemma assocAppend_keys (l : List (String × List (Nat × String))) (k : String)
    (extra : List (Nat × String)) :
    (assocAppend l k extra).map Prod.fst = l.map Prod.fst := by
  induction l with
  | nil => rfl
  | cons p rest ih =>
    obtain ⟨k0, v0⟩ := p
    by_cases hk : k0 == k
    · simp [assocAppend, hk]
    · simp [assocAppend, hk, ih]

lemma fileBoundaryStep_keys (ss : List (String × List (Nat × String)))
    (b : BoundaryState) (f : String) :
    ((fileBoundaryStep ss b f).1).map Prod.fst = ss.map Prod.fst := by
  cases b with
  | LookForFile queue =>
    by_cases hq : queue.isEmpty
    · simp [fileBoundaryStep, hq]
    · simp [fileBoundaryStep, hq, assocAppend_keys]
  | LookForSections f0 => rfl
  | FilesEnded => rfl

/-- C6: a FILE symbol whose resolved name collides with an already-seen
unit name is renamed with the counter suffix and processing continues
(the suffixed unit name is recorded as a unit); if the generated suffixed
name also already exists as a unit name, the whole read fails hard. -/
theorem c6_duplicate_unit_name (st : ReaderState) (name : String)
    (h1 : isPchName name = false)
    (h2 : (st.sectionStarts.lookup name).isSome = true) :
    (st.sectionStarts.lookup
        (name ++ "_" ++ Nat.repr ((st.nameToIndex.lookup name).getD 0 + 1)) = none →
      ∃ st2, processFileSymbol st name = .ok st2 ∧
        (name ++ "_" ++ Nat.repr ((st.nameToIndex.lookup name).getD 0 + 1)) ∈
          st2.sectionStarts.map Prod.fst) ∧
    ((st.sectionStarts.lookup
        (name ++ "_" ++ Nat.repr ((st.nameToIndex.lookup name).getD 0 + 1))).isSome = true →
      processFileSymbol st name =
        .error ("Duplicate filename " ++
          (name ++ "_" ++ Nat.repr ((st.nameToIndex.lookup name).getD 0 + 1)))) := by
  obtain ⟨vs, hvs⟩ := Option.isSome_iff_exists.mp h2
  constructor
  · intro hnone
    refine ⟨ReaderState.mk
      (fileBoundaryStep
        (st.sectionStarts ++
          [(name ++ "_" ++ Nat.repr ((st.nameToIndex.lookup name).getD 0 + 1), [])])
        st.boundaryState
        (name ++ "_" ++ Nat.repr ((st.nameToIndex.lookup name).getD 0 + 1))).1
      (assocSet st.nameToIndex name ((st.nameToIndex.lookup name).getD 0 + 1))
      (fileBoundaryStep
        (st.sectionStarts ++
          [(name ++ "_" ++ Nat.repr ((st.nameToIndex.lookup name).getD 0 + 1), [])])
        st.boundaryState
        (name ++ "_" ++ Nat.repr ((st.nameToIndex.lookup name).getD 0 + 1))).2,
      ?_, ?_⟩
    · simp [processFileSymbol, h1, hvs, hnone]
    · rw [fileBoundaryStep_keys]
      simp
  · intro hsome
    obtain ⟨v, hv⟩ := Option.isSome_iff_exists.mp hsome
    simp [processFileSymbol, h1, hvs, hv]

/-- C6 witness: processing a FILE symbol a.c that collides with an
existing unit a.c renames it to a.c_1 and continues; from a state where
a.c_1 is also taken, the same FILE symbol is a hard error. -/
theorem c6_witness :
    processFileSymbol ⟨[("a.c", [])], [], .LookForSections "a.c"⟩ "a.c" =
      .ok ⟨[("a.c", []), ("a.c_1", [])], [("a.c", 1)], .LookForSections "a.c_1"⟩ ∧
    processFileSymbol ⟨[("a.c", []), ("a.c_1", [])], [], .LookForSections "a.c"⟩
        "a.c" = .error "Duplicate filename a.c_1" := by
  constructor
  · rfl
  · exact (c6_duplicate_unit_name
      ⟨[("a.c", []), ("a.c_1", [])], [], .LookForSections "a.c"⟩ "a.c"
      (by decide) (by decide)).2 (by decide)

/-- ELF symbol kinds relevant to relocation addend resolution, mirroring
the `object` crate `SymbolKind` cases matched in `to_obj_reloc`. -/
inductive ElfSymbolKind
  | Null
  | Text
  | Data
  | Section
  | File
  | Label
  | Tls
  | Unknown
  deriving DecidableEq

/-- Reads a 4-byte big-endian value from section data, as done by
`u32::from_be_bytes` on the relocation site slice in `to_obj_reloc`
(`src/util/elf.rs` lines 866-869).  Callers guard the bounds; out of
bounds the Rust slice panics. -/
def readU32BE (data : List Nat) (addr : Nat) : Nat :=
  (data.getD addr 0) * 0x1000000 + (data.getD (addr + 1) 0) * 0x10000 +
  (data.getD (addr + 2) 0) * 0x100 + data.getD (addr + 3) 0

/-- Embeds the implicit-addend branch of `to_obj_reloc`
(`src/util/elf.rs` lines 866-875): with an implicit encoding, read a
4-byte big-endian value from the relocation site (a panic on an
out-of-range site is modelled as a failure) and allow it only for the
`Absolute` kind; otherwise take the explicit addend. -/
def sectionImplicitAddend (hasImplicit : Bool) (explicitAddend : Int)
    (kind : ObjRelocKind) (sectionData : List Nat) (address : Nat) :
    Except String Int :=
  if hasImplicit then
    if address + 4 ≤ sectionData.length then
      match kind with
      | .Absolute => .ok (Int.ofNat (readU32BE sectionData address))
      | _ => .error "Unsupported implicit relocation type"
    else .error "relocation site out of section bounds"
  else .ok explicitAddend

/-- Embeds the addend resolution of `to_obj_reloc`
(`src/util/elf.rs` lines 861-881): ordinary symbol kinds take the
explicit addend; section-kind targets resolve the addend via
`sectionImplicitAddend` and then require it to be non-negative; other
symbol kinds are a hard error. -/
def relocAddend (symKind : ElfSymbolKind) (hasImplicit : Bool)
    (explicitAddend : Int) (kind : ObjRelocKind) (sectionData : List Nat)
    (address : Nat) : Except String Int :=
  match symKind with
  | .Text | .Data | .Unknown | .Label => .ok explicitAddend
  | .Section =>
    match sectionImplicitAddend hasImplicit explicitAddend kind sectionData address with
    | .error e => .error e
    | .ok addend =>
      if 0 ≤ addend then .ok addend else .error "Negative addend in section reloc"
  | _ => .error "Unhandled relocation symbol type"

lemma relocAddend_section_ok (hasImpl : Bool) (ea : Int) (kind : ObjRelocKind)
    (data : List Nat) (addr : Nat) (v : Int)
    (hv : relocAddend .Section hasImpl ea kind data addr = .ok v) : 0 ≤ v := by
  rcases hs : sectionImplicitAddend hasImpl ea kind data addr with e | addend
  · simp [relocAddend, hs] at hv
  · simp only [relocAddend, hs] at hv
    by_cases h0 : 0 ≤ addend
    · rw [if_pos h0] at hv
      cases hv
      exact h0
    · rw [if_neg h0] at hv
      cases hv

/-- C7: for a relocation against a section-kind symbol, an implicit
addend is read as a 4-byte big-endian value from the relocation site only
for the `Absolute` kind (any other kind with an implicit encoding is a
hard error), and a negative resolved addend is a hard failure; every
successful result is non-negative. -/
theorem c7_section_reloc_addend (hasImpl : Bool) (kind : ObjRelocKind) (ea : Int)
    (data : List Nat) (addr : Nat) :
    (hasImpl = true → addr + 4 ≤ data.length →
      relocAddend .Section hasImpl ea kind data addr =
        (if kind = .Absolute then .ok (Int.ofNat (readU32BE data addr))
         else .error "Unsupported implicit relocation type")) ∧
    (hasImpl = false → ea < 0 →
      relocAddend .Section hasImpl ea kind data addr =
        .error "Negative addend in section reloc") ∧
    (∀ v, relocAddend .Section hasImpl ea kind data addr = .ok v → 0 ≤ v) := by
  refine ⟨?_, ?_, ?_⟩
  · intro h hlen
    subst h
    cases kind <;>
      simp [relocAddend, sectionImplicitAddend, hlen, Int.ofNat_nonneg]
  · intro h hneg
    subst h
    simp [relocAddend, sectionImplicitAddend, Int.not_le.mpr hneg]
  · intro v hv
    exact relocAddend_section_ok hasImpl ea kind data addr v hv

/-- C7 witness: the addend rules evaluated on concrete inputs, covering
the implicit-Absolute read, the implicit non-Absolute error, and the
negative explicit addend error. -/
theorem c7_witness :
    relocAddend .Section true 0 ObjRelocKind.Absolute [1, 2, 3, 4] 0 =
      .ok (Int.ofNat 0x01020304) ∧
    relocAddend .Section true 0 ObjRelocKind.PpcRel24 [1, 2, 3, 4] 0 =
      .error "Unsupported implicit relocation type" ∧
    relocAddend .Section false (-5) ObjRelocKind.Absolute [] 0 =
      .error "Negative addend in section reloc" ∧
    (0 : Int) ≤ Int.ofNat 0x01020304 := by
  refine ⟨?_, ?_, ?_, ?_⟩
  · have h := (c7_section_reloc_addend true ObjRelocKind.Absolute 0 [1, 2, 3, 4] 0).1
      rfl (by decide)
    simpa using h
  · have h := (c7_section_reloc_addend true ObjRelocKind.PpcRel24 0 [1, 2, 3, 4] 0).1
      rfl (by decide)
    simpa using h
  · exact (c7_section_reloc_addend false ObjRelocKind.Absolute (-5) [] 0).2.1
      rfl (by decide)
  · exact (c7_section_reloc_addend true ObjRelocKind.Absolute 0 [1, 2, 3, 4] 0).2.2
      (Int.ofNat 0x01020304) (by rfl)

/-- ELF symbol binding as written in `st_info` by `write_elf`. -/
inductive SymBind
  | bLocal
  | bGlobal
  | bWeak
  deriving DecidableEq

/-- Model symbol kinds, mirroring `ObjSymbolKind` in `src/obj`. -/
inductive ObjSymbolKindM
  | Unknown
  | Function
  | Object
  | Section
  deriving DecidableEq

/-- The parts of a model symbol (`ObjSymbol`) that the symbol-table
emission of `write_elf` inspects: the `Local` and `Weak` flags, the kind,
and the optional owning-section index. -/
structure MSym where
  localF : Bool
  weakF : Bool
  kind : ObjSymbolKindM
  sectionIdx : Option Nat
  deriving DecidableEq

/-- One reserved symbol-table entry: the model symbol index it came from
(`none` for the null, FILE and section symbols) and its binding. -/
structure WEntry where
  origin : Option Nat
  bind : SymBind
  deriving DecidableEq

/-- The `st_bind` computation of `write_elf` (lines 522-528): Weak takes
precedence over Local, else Global. -/
def symBindOf (s : MSym) : SymBind :=
  if s.weakF then .bWeak else if s.localF then .bLocal else .bGlobal

/-- The iteration order of the main symbol loop of `write_elf`
(lines 490-495): all `Local`-flagged symbols in original order, then the
rest in original order, each with its original index. -/
def loopOrder (syms : List MSym) : List (Nat × MSym) :=
  (syms.enum.filter (fun p => p.2.localF)) ++
  (syms.enum.filter (fun p => !p.2.localF))

/-- Embeds the body of the main symbol loop of `write_elf`
(lines 490-552), carrying the reserved entries (the writer symbol count
is their length, the null symbol included) and `num_local`.  In a
relocatable object a `Section`-kind model symbol is skipped (it was
emitted with the section symbols already) and must carry a section index;
otherwise an entry is reserved and `num_local` is set to the new symbol
count when the binding is `STB_LOCAL`. -/
def emitLoop (relocatable : Bool) :
    List (Nat × MSym) → List WEntry → Nat → Except String (List WEntry × Nat)
  | [], es, nl => .ok (es, nl)
  | (i, s) :: rest, es, nl =>
    if relocatable && (s.kind == ObjSymbolKindM.Section) then
      match s.sectionIdx with
      | none => .error "section symbol without section index"
      | some _ => emitLoop relocatable rest es nl
    else
      emitLoop relocatable rest (es ++ [⟨some i, symBindOf s⟩])
        (if symBindOf s = .bLocal then es.length + 1 else nl)

/-- The entries reserved before the main symbol loop of `write_elf`: the
null symbol, the optional synthetic FILE symbol (lines 427-461), and for
relocatable objects one local section symbol per model section
(lines 464-487). -/
def preSymbols (hasName relocatable : Bool) (numSections : Nat) : List WEntry :=
  ⟨none, .bLocal⟩ ::
    ((if hasName then [⟨none, .bLocal⟩] else []) ++
     (if relocatable then List.replicate numSections ⟨none, .bLocal⟩ else []))

/-- Embeds the complete symbol-table reservation of `write_elf`
(lines 421-552): the pre-loop entries, the initial `num_local` (set to
the symbol count after the last section symbol when any was reserved,
else 0), then the main loop. -/
def emitSymbols (relocatable hasName : Bool) (numSections : Nat)
    (syms : List MSym) : Except String (List WEntry × Nat) :=
  emitLoop relocatable (loopOrder syms)
    (preSymbols hasName relocatable numSections)
    (if relocatable && decide (0 < numSections) then
      (preSymbols hasName relocatable numSections).length
     else 0)

/-- The entries the main loop appends for a given iteration order. -/
def processedOf (relocatable : Bool) (order : List (Nat × MSym)) : List WEntry :=
  order.filterMap (fun p =>
    if relocatable && (p.2.kind == ObjSymbolKindM.Section) then none
    else some ⟨some p.1, symBindOf p.2⟩)

lemma emitLoop_append (r : Bool) (o1 o2 : List (Nat × MSym)) (es : List WEntry)
    (nl : Nat) :
    emitLoop r (o1 ++ o2) es nl =
      match emitLoop r o1 es nl with
      | .ok (es1, nl1) => emitLoop r o2 es1 nl1
      | .error e => .error e := by
  induction o1 generalizing es nl with
  | nil => simp [emitLoop]
  | cons p rest ih =>
    obtain ⟨i, s⟩ := p
    by_cases hc : (r && (s.kind == ObjSymbolKindM.Section)) = true
    · rcases hidx : s.sectionIdx with _ | j
      · simp [emitLoop, hc, hidx]
      · simp [emitLoop, hc, hidx, ih]
    · simp [emitLoop, hc, ih]

lemma emitLoop_ok_entries (r : Bool) (order : List (Nat × MSym))
    (es : List WEntry) (nl : Nat) (es2 : List WEntry) (nl2 : Nat)
    (h : emitLoop r order es nl = .ok (es2, nl2)) :
    es2 = es ++ processedOf r order := by
  induction order generalizing es nl with
  | nil =>
    simp [emitLoop] at h
    simp [processedOf, h.1]
  | cons p rest ih =>
    obtain ⟨i, s⟩ := p
    by_cases hc : (r && (s.kind == ObjSymbolKindM.Section)) = true
    · rcases hidx : s.sectionIdx with _ | j
      · simp [emitLoop, hc, hidx] at h
      · simp only [emitLoop, if_pos hc, hidx] at h
        rw [ih _ _ h]
        have hstep : processedOf r ((i, s) :: rest) = processedOf r rest := by
          simp only [processedOf, List.filterMap_cons]
          rw [if_pos hc]
        rw [hstep]
    · simp only [emitLoop, if_neg hc] at h
      rw [ih _ _ h]
      have hstep : processedOf r ((i, s) :: rest) =
          ⟨some i, symBindOf s⟩ :: processedOf r rest := by
        simp only [processedOf, List.filterMap_cons]
        rw [if_neg hc]
      rw [hstep, List.append_assoc]
      rfl

lemma processedOf_filterMap_origin (r : Bool) (order : List (Nat × MSym)) :
    (processedOf r order).filterMap (fun e => e.origin) =
      (order.filter
        (fun p => !(r && (p.2.kind == ObjSymbolKindM.Section)))).map Prod.fst := by
  induction order with
  | nil => rfl
  | cons p rest ih =>
    by_cases hc : (r && (p.2.kind == ObjSymbolKindM.Section)) = true
    · have h1 : processedOf r (p :: rest) = processedOf r rest := by
        simp only [processedOf, List.filterMap_cons]
        rw [if_pos hc]
      have h2 : (p :: rest).filter
          (fun q => !(r && (q.2.kind == ObjSymbolKindM.Section))) =
          rest.filter (fun q => !(r && (q.2.kind == ObjSymbolKindM.Section))) := by
        rw [List.filter_cons]
        rw [if_neg (by simp [hc])]
      rw [h1, h2, ih]
    · have h1 : processedOf r (p :: rest) =
          ⟨some p.1, symBindOf p.2⟩ :: processedOf r rest := by
        simp only [processedOf, List.filterMap_cons]
        rw [if_neg hc]
      have h2 : (p :: rest).filter
          (fun q => !(r && (q.2.kind == ObjSymbolKindM.Section))) =
          p :: rest.filter (fun q => !(r && (q.2.kind == ObjSymbolKindM.Section))) := by
        rw [List.filter_cons]
        rw [if_pos (by simp [hc])]
      rw [h1, h2]
      simp only [List.filterMap_cons, List.map_cons]
      rw [ih]

lemma preSymbols_eq (h r : Bool) (n : Nat) :
    preSymbols h r n =
      List.replicate (1 + (if h then 1 else 0) + (if r then n else 0))
        (⟨none, .bLocal⟩ : WEntry) := by
  cases h <;> cases r <;>
    simp [preSymbols, List.replicate_add, List.replicate_succ]

lemma filterMap_origin_replicate (n : Nat) (b : SymBind) :
    (List.replicate n (⟨none, b⟩ : WEntry)).filterMap (fun e => e.origin) = [] := by
  induction n with
  | zero => rfl
  | succ k ih => simp [List.replicate_succ, List.filterMap_cons, ih]

lemma snd_mem_of_mem_enumFrom {l : List MSym} {n : Nat} {p : Nat × MSym}
    (h : p ∈ l.enumFrom n) : p.2 ∈ l := by
  induction l generalizing n with
  | nil => cases h
  | cons a t ih =>
    rcases List.mem_cons.mp h with h1 | h2
    · simp [h1]
    · exact List.mem_cons_of_mem _ (ih h2)

lemma snd_mem_of_mem_enum {l : List MSym} {p : Nat × MSym}
    (h : p ∈ l.enum) : p.2 ∈ l :=
  snd_mem_of_mem_enumFrom h

lemma take_append_le (l1 l2 : List WEntry) (n : Nat) (h : n ≤ l1.length) :
    (l1 ++ l2).take n = l1.take n := by
  induction l1 generalizing n with
  | nil =>
    have : n = 0 := Nat.le_zero.mp h
    simp [this]
  | cons a t ih =>
    cases n with
    | zero => rfl
    | succ k =>
      simp only [List.cons_append, List.take_succ_cons]
      rw [ih k (by simpa using h)]

lemma emitLoop_phase1 (r : Bool) (order : List (Nat × MSym))
    (horder : ∀ p ∈ order, p.2.localF = true ∧ p.2.weakF = false) :
    ∀ (es : List WEntry) (nl : Nat) (es1 : List WEntry) (nl1 : Nat),
    (∀ e ∈ es, e.bind = .bLocal) → nl ≤ es.length →
    emitLoop r order es nl = .ok (es1, nl1) →
    (∀ e ∈ es1, e.bind = .bLocal) ∧ nl1 ≤ es1.length := by
  induction order with
  | nil =>
    intro es nl es1 nl1 hes hnl h
    simp [emitLoop] at h
    obtain ⟨h1, h2⟩ := h
    subst h1; subst h2
    exact ⟨hes, hnl⟩
  | cons p rest ih =>
    intro es nl es1 nl1 hes hnl h
    obtain ⟨i, s⟩ := p
    have hrest : ∀ p ∈ rest, p.2.localF = true ∧ p.2.weakF = false :=
      fun q hq => horder q (List.mem_cons_of_mem _ hq)
    have hps := horder (i, s) (List.mem_cons_self _ _)
    by_cases hc : (r && (s.kind == ObjSymbolKindM.Section)) = true
    · rcases hidx : s.sectionIdx with _ | j
      · simp [emitLoop, hc, hidx] at h
      · simp only [emitLoop, if_pos hc, hidx] at h
        exact ih hrest es nl es1 nl1 hes hnl h
    · have hps2 : s.localF = true ∧ s.weakF = false := hps
      have hbind : symBindOf s = .bLocal := by
        simp [symBindOf, hps2.1, hps2.2]
      simp only [emitLoop, if_neg hc, hbind, if_pos rfl] at h
      refine ih hrest _ _ es1 nl1 ?_ ?_ h
      · intro e he
        rcases List.mem_append.mp he with h1 | h2
        · exact hes e h1
        · simp at h2
          simp [h2, hbind]
      · simp
  
lemma emitLoop_phase2 (r : Bool) (order : List (Nat × MSym))
    (horder : ∀ p ∈ order, p.2.localF = false) :
    ∀ (es : List WEntry) (nl : Nat) (es1 : List WEntry) (nl1 : Nat),
    emitLoop r order es nl = .ok (es1, nl1) → nl1 = nl := by
  induction order with
  | nil =>
    intro es nl es1 nl1 h
    simp [emitLoop] at h
    exact h.2.symm
  | cons p rest ih =>
    intro es nl es1 nl1 h
    obtain ⟨i, s⟩ := p
    have hrest : ∀ p ∈ rest, p.2.localF = false :=
      fun q hq => horder q (List.mem_cons_of_mem _ hq)
    have hloc := horder (i, s) (List.mem_cons_self _ _)
    by_cases hc : (r && (s.kind == ObjSymbolKindM.Section)) = true
    · rcases hidx : s.sectionIdx with _ | j
      · simp [emitLoop, hc, hidx] at h
      · simp only [emitLoop, if_pos hc, hidx] at h
        exact ih hrest es nl es1 nl1 h
    · have hloc2 : s.localF = false := hloc
      have hbind : symBindOf s ≠ .bLocal := by
        by_cases hw : s.weakF = true <;> simp [symBindOf, hw, hloc2]
      simp only [emitLoop, if_neg hc, if_neg hbind] at h
      exact ih hrest _ _ es1 nl1 h

lemma filter_and_comm (p q : (Nat × MSym) → Bool) (l : List (Nat × MSym)) :
    l.filter (fun a => p a && q a) = l.filter (fun a => q a && p a) := by
  have hfun : (fun a => p a && q a) = (fun a => q a && p a) :=
    funext fun a => Bool.and_comm _ _
  rw [hfun]

/-- C8 (amended): provided no model symbol is flagged both Local and
Weak, the symbol loop of `write_elf` writes every local-flagged model
symbol before every non-local one, each group in original order (the
origin indices of the reserved entries are exactly the kept local-flagged
indices in order followed by the kept non-local indices in order), and
every entry before the recorded `num_local` boundary has `STB_LOCAL`
binding, so the recorded number of locals equals the count of local
symbols written before that boundary. -/
theorem c8_symtab_layout (relocatable hasName : Bool) (numSections : Nat)
    (syms : List MSym) (es : List WEntry) (nl : Nat)
    (hw : ∀ s ∈ syms, ¬(s.localF = true ∧ s.weakF = true))
    (h : emitSymbols relocatable hasName numSections syms = .ok (es, nl)) :
    es.filterMap (fun e => e.origin) =
      ((syms.enum.filter (fun p => p.2.localF &&
          !(relocatable && (p.2.kind == ObjSymbolKindM.Section)))).map Prod.fst) ++
      ((syms.enum.filter (fun p => !p.2.localF &&
          !(relocatable && (p.2.kind == ObjSymbolKindM.Section)))).map Prod.fst) ∧
    (∀ e ∈ es.take nl, e.bind = .bLocal) := by
  simp only [emitSymbols, loopOrder] at h
  rw [emitLoop_append] at h
  rcases h1 : emitLoop relocatable (syms.enum.filter (fun p => p.2.localF))
      (preSymbols hasName relocatable numSections)
      (if relocatable && decide (0 < numSections) then
        (preSymbols hasName relocatable numSections).length
       else 0) with e | ⟨es1, nl1⟩
  · rw [h1] at h
    cases h
  · rw [h1] at h
    have hpre_local : ∀ e ∈ preSymbols hasName relocatable numSections,
        e.bind = SymBind.bLocal := by
      intro e he
      rw [preSymbols_eq] at he
      rw [List.eq_of_mem_replicate he]
    have hnl0 : (if relocatable && decide (0 < numSections) then
        (preSymbols hasName relocatable numSections).length else 0) ≤
        (preSymbols hasName relocatable numSections).length := by
      by_cases hcond : (relocatable && decide (0 < numSections)) = true
      · rw [if_pos hcond]
      · rw [if_neg hcond]
        exact Nat.zero_le _
    have hlo_prop : ∀ p ∈ syms.enum.filter (fun p => p.2.localF),
        p.2.localF = true ∧ p.2.weakF = false := by
      intro p hp
      obtain ⟨hmem, hloc⟩ := List.mem_filter.mp hp
      refine ⟨hloc, ?_⟩
      have hs := hw p.2 (snd_mem_of_mem_enum hmem)
      by_cases hwk : p.2.weakF = true
      · exact absurd ⟨hloc, hwk⟩ hs
      · exact Bool.not_eq_true _ ▸ hwk
    have hph1 := emitLoop_phase1 relocatable _ hlo_prop _ _ es1 nl1
      hpre_local hnl0 h1
    have hnlo_prop : ∀ p ∈ syms.enum.filter (fun p => !p.2.localF),
        p.2.localF = false := by
      intro p hp
      obtain ⟨_, hloc⟩ := List.mem_filter.mp hp
      simpa using hloc
    have hnl1 : nl = nl1 := emitLoop_phase2 relocatable _ hnlo_prop _ _ es nl h
    have hes : es = es1 ++ processedOf relocatable
        (syms.enum.filter (fun p => !p.2.localF)) :=
      emitLoop_ok_entries relocatable _ _ _ es nl h
    have hes1 : es1 = preSymbols hasName relocatable numSections ++
        processedOf relocatable (syms.enum.filter (fun p => p.2.localF)) :=
      emitLoop_ok_entries relocatable _ _ _ es1 nl1 h1
    constructor
    · rw [hes, hes1]
      rw [List.filterMap_append, List.filterMap_append]
      rw [preSymbols_eq, filterMap_origin_replicate]
      rw [processedOf_filterMap_origin, processedOf_filterMap_origin]
      rw [List.filter_filter, List.filter_filter]
      rw [List.nil_append]
      rw [filter_and_comm, filter_and_comm
        (fun p => !(relocatable && (p.2.kind == ObjSymbolKindM.Section)))
        (fun p => !p.2.localF)]
    · intro e he
      rw [hes] at he
      rw [take_append_le _ _ nl (hnl1 ▸ hph1.2)] at he
      rw [hnl1] at he
      exact hph1.1 e (List.take_subset _ _ he)

/-- Model symbols for the C8 witness: one global function and one local
object. -/
def c8SymG : MSym := ⟨false, false, .Function, none⟩

/-- Local object symbol for the C8 witness. -/
def c8SymL : MSym := ⟨true, false, .Object, some 0⟩

/-- Reserved entries produced for the C8 witness object. -/
def c8Entries : List WEntry :=
  [⟨none, .bLocal⟩, ⟨none, .bLocal⟩, ⟨some 1, .bLocal⟩, ⟨some 0, .bGlobal⟩]

/-- C8 witness: the amended layout theorem evaluated on an executable
with a FILE symbol, one global and one local symbol. -/
theorem c8_witness :
    c8Entries.filterMap (fun e => e.origin) =
      (([c8SymG, c8SymL].enum.filter (fun p => p.2.localF &&
          !(false && (p.2.kind == ObjSymbolKindM.Section)))).map Prod.fst) ++
      (([c8SymG, c8SymL].enum.filter (fun p => !p.2.localF &&
          !(false && (p.2.kind == ObjSymbolKindM.Section)))).map Prod.fst) ∧
    (⟨none, SymBind.bLocal⟩ : WEntry).bind = SymBind.bLocal := by
  have h := c8_symtab_layout false true 0 [c8SymG, c8SymL] c8Entries 3
    (by decide) (by rfl)
  exact ⟨h.1, h.2 ⟨none, .bLocal⟩ (by decide)⟩

/-- C8 counterexample: a symbol flagged both Local and Weak is written
inside the locals block with Weak binding; `num_local` is recorded as 3
but only 2 of the 3 entries before the boundary have local binding, so
the recorded number of locals differs from the count of local symbols
written before the boundary. -/
theorem c8_counterexample :
    emitSymbols false false 0
        [⟨true, true, .Function, none⟩, ⟨true, false, .Object, none⟩] =
      .ok ([⟨none, .bLocal⟩, ⟨some 0, .bWeak⟩, ⟨some 1, .bLocal⟩], 3) ∧
    (([⟨none, .bLocal⟩, ⟨some 0, .bWeak⟩, ⟨some 1, .bLocal⟩] :
        List WEntry).take 3).countP
      (fun e => decide (e.bind = SymBind.bLocal)) = 2 ∧
    (2 : Nat) ≠ 3 := by
  refine ⟨by rfl, by rfl, by decide⟩

/-- Object kinds, mirroring `ObjKind` in `src/obj`. -/
inductive ObjKindM
  | Executable
  | Relocatable
  deriving DecidableEq

/-- Section kinds, mirroring `ObjSectionKind` in `src/obj`. -/
inductive ObjSectionKindM
  | Code
  | Data
  | ReadOnlyData
  | Bss
  deriving DecidableEq

/-- A model relocation (`ObjReloc`): kind, target symbol index, addend. -/
structure RelocM where
  kind : ObjRelocKind
  targetSymbol : Nat
  addend : Int
  deriving DecidableEq

/-- The parts of a model section (`ObjSection`) that `write_elf`
inspects: name, kind, load address, declared size, buffered data, and the
relocation map (a `BTreeMap` keyed by in-section offset, modelled as an
association list in key order). -/
structure SectionM where
  name : String
  kind : ObjSectionKindM
  address : Nat
  size : Nat
  data : List Nat
  relocations : List (Nat × RelocM)
  deriving DecidableEq

/-- The parts of a model object (`ObjInfo`) that the modelled `write_elf`
control flow inspects. -/
structure ObjInfoM where
  kind : ObjKindM
  name : String
  sections : List SectionM
  symbols : List MSym
  deriving DecidableEq

/-- One output region emitted by the write phase of `write_elf`, in
emission order.  Regions whose exact bytes are produced by the external
`object` crate writer are recorded as events without byte content; the
section data bytes, which `write_elf` itself computes, are carried. -/
inductive WEvent
  | fileHeader
  | programHeader (index : Nat)
  | sectionData (name : String) (bytes : List Nat)
  | relocationTable (name : String)
  | symbolTable (entries : List WEntry)
  | stringTable
  | sectionNameTable
  | sectionHeaders (numLocal : Nat)
  deriving DecidableEq

/-- Embeds the size check of the reserve phase of `write_elf`
(lines 560-573): every non-Bss section must have
`data.len() == size`; the first mismatch aborts. -/
def checkSectionSizes : List SectionM → Except String Unit
  | [] => .ok ()
  | s :: rest =>
    if s.kind = ObjSectionKindM.Bss then checkSectionSizes rest
    else if s.data.length = s.size then checkSectionSizes rest
    else .error "section size mismatch"

/-- Big-endian bytes of a 32-bit word (`u32::to_be_bytes`). -/
def beBytes32 (w : Nat) : List Nat :=
  [w / 0x1000000 % 256, w / 0x10000 % 256, w / 0x100 % 256, w % 256]

/-- Embeds the relocation-masking loop of
`write_relocatable_section_data` (lines 888-913): emit the data up to
each relocation, then the masked word, then the remaining data.  Rust
slice panics on out-of-range relocation addresses are modelled as
failures. -/
def wrsdGo (data : List Nat) : Nat → List (Nat × RelocM) → Except String (List Nat)
  | cur, [] =>
    if cur ≤ data.length then .ok (data.drop cur)
    else .error "slice index out of range"
  | cur, (addr, r) :: rest =>
    if cur ≤ addr ∧ addr + 4 ≤ data.length then
      match wrsdGo data (addr + 4) rest with
      | .error e => .error e
      | .ok tail =>
        .ok ((data.drop cur).take (addr - cur) ++
          beBytes32 (zeroRelocWord r.kind (readU32BE data addr)) ++ tail)
    else .error "slice index out of range"

/-- Embeds `write_relocatable_section_data` (lines 886-915): the section
address must be zero, then the data is emitted with relocated words
masked. -/
def write_relocatable_section_data (s : SectionM) : Except String (List Nat) :=
  if s.address = 0 then wrsdGo s.data 0 s.relocations
  else .error "relocatable section with nonzero address"

/-- Embeds the section-data write loop of `write_elf` (lines 629-640):
Bss sections are skipped; relocatable objects go through
`write_relocatable_section_data`, executables emit the data verbatim. -/
def writeSectionsPhase (relocatable : Bool) :
    List SectionM → Except String (List WEvent)
  | [] => .ok []
  | s :: rest =>
    if s.kind = ObjSectionKindM.Bss then writeSectionsPhase relocatable rest
    else
      match (if relocatable then write_relocatable_section_data s else .ok s.data) with
      | .error e => .error e
      | .ok bytes =>
        match writeSectionsPhase relocatable rest with
        | .error e => .error e
        | .ok evs => .ok (WEvent.sectionData s.name bytes :: evs)

/-- Embeds the control flow of `write_elf` (lines 347-766) at the level
of emitted output regions: the reserve phase (symbol reservation via
`emitSymbols` and the section size checks) emits nothing; the write
phase then emits the file header, program headers for executables,
section data, relocation tables, symbol table, string tables and section
headers in source order.  The result pairs the outcome with the list of
regions emitted up to the return point. -/
def writeElfM (obj : ObjInfoM) : Except String Unit × List WEvent :=
  match emitSymbols (decide (obj.kind = ObjKindM.Relocatable))
      (!(obj.name == "")) obj.sections.length obj.symbols with
  | .error e => (.error e, [])
  | .ok (entries, numLocal) =>
    match checkSectionSizes obj.sections with
    | .error e => (.error e, [])
    | .ok _ =>
      let hdr := WEvent.fileHeader ::
        (if obj.kind = ObjKindM.Executable then
          (List.range obj.sections.length).map WEvent.programHeader
         else [])
      match writeSectionsPhase (decide (obj.kind = ObjKindM.Relocatable))
          obj.sections with
      | .error e => (.error e, hdr)
      | .ok secEvs =>
        (.ok (), hdr ++ secEvs ++
          ((obj.sections.filter (fun s => !s.relocations.isEmpty)).map
            (fun s => WEvent.relocationTable s.name)) ++
          [WEvent.symbolTable entries, WEvent.stringTable,
           WEvent.sectionNameTable, WEvent.sectionHeaders numLocal])

lemma checkSectionSizes_error (sections : List SectionM)
    (h : ∃ s ∈ sections, s.kind ≠ ObjSectionKindM.Bss ∧ s.data.length ≠ s.size) :
    checkSectionSizes sections = .error "section size mismatch" := by
  induction sections with
  | nil =>
    obtain ⟨s, hs, _⟩ := h
    cases hs
  | cons s rest ih =>
    obtain ⟨t, ht, htk, hts⟩ := h
    rcases List.mem_cons.mp ht with h1 | h2
    · subst h1
      rw [checkSectionSizes, if_neg htk, if_neg hts]
    · by_cases hbss : s.kind = ObjSectionKindM.Bss
      · rw [checkSectionSizes, if_pos hbss]
        exact ih ⟨t, h2, htk, hts⟩
      · by_cases hsz : s.data.length = s.size
        · rw [checkSectionSizes, if_neg hbss, if_pos hsz]
          exact ih ⟨t, h2, htk, hts⟩
        · rw [checkSectionSizes, if_neg hbss, if_neg hsz]

lemma writeSectionsPhase_error (sections : List SectionM)
    (h : ∃ s ∈ sections, s.kind ≠ ObjSectionKindM.Bss ∧ s.address ≠ 0) :
    ∃ e, writeSectionsPhase true sections = .error e := by
  induction sections with
  | nil =>
    obtain ⟨s, hs, _⟩ := h
    cases hs
  | cons s rest ih =>
    obtain ⟨t, ht, htk, hta⟩ := h
    rcases List.mem_cons.mp ht with h1 | h2
    · subst h1
      have haddr : write_relocatable_section_data t =
          .error "relocatable section with nonzero address" := by
        rw [write_relocatable_section_data, if_neg hta]
      refine ⟨"relocatable section with nonzero address", ?_⟩
      rw [writeSectionsPhase, if_neg htk]
      simp [haddr]
    · by_cases hbss : s.kind = ObjSectionKindM.Bss
      · obtain ⟨e, he⟩ := ih ⟨t, h2, htk, hta⟩
        refine ⟨e, ?_⟩
        rw [writeSectionsPhase, if_pos hbss]
        exact he
      · rcases hw : write_relocatable_section_data s with e0 | bytes
        · refine ⟨e0, ?_⟩
          rw [writeSectionsPhase, if_neg hbss]
          simp [hw]
        · obtain ⟨e, he⟩ := ih ⟨t, h2, htk, hta⟩
          refine ⟨e, ?_⟩
          rw [writeSectionsPhase, if_neg hbss]
          simp [hw, he]

/-- C9: if any non-Bss section's declared size differs from its buffered
data length, `write_elf` fails during the reserve phase, before any
output region has been emitted: the emitted-region trace is empty on
failure. -/
theorem c9_size_mismatch_no_output (obj : ObjInfoM)
    (h : ∃ s ∈ obj.sections, s.kind ≠ ObjSectionKindM.Bss ∧
      s.data.length ≠ s.size) :
    ∃ e, writeElfM obj = (Except.error e, []) := by
  rcases hsym : emitSymbols (decide (obj.kind = ObjKindM.Relocatable))
      (!(obj.name == "")) obj.sections.length obj.symbols with e | ⟨entries, numLocal⟩
  · exact ⟨e, by simp [writeElfM, hsym]⟩
  · have hchk := checkSectionSizes_error obj.sections h
    exact ⟨"section size mismatch", by simp [writeElfM, hsym, hchk]⟩

/-- C10: for a relocatable object with a non-Bss section at a nonzero
load address, `write_elf` fails: address 0 on every non-Bss section is a
precondition enforced by `write_relocatable_section_data`. -/
theorem c10_relocatable_nonzero_address_fails (obj : ObjInfoM)
    (hrel : obj.kind = ObjKindM.Relocatable)
    (h : ∃ s ∈ obj.sections, s.kind ≠ ObjSectionKindM.Bss ∧ s.address ≠ 0) :
    ∃ e, (writeElfM obj).1 = .error e := by
  rcases hsym : emitSymbols (decide (obj.kind = ObjKindM.Relocatable))
      (!(obj.name == "")) obj.sections.length obj.symbols with e | ⟨entries, numLocal⟩
  · exact ⟨e, by simp [writeElfM, hsym]⟩
  · rcases hchk : checkSectionSizes obj.sections with e | u
    · exact ⟨e, by simp [writeElfM, hsym, hchk]⟩
    · obtain ⟨e, hsec⟩ := writeSectionsPhase_error obj.sections h
      refine ⟨e, ?_⟩
      have hdec : decide (obj.kind = ObjKindM.Relocatable) = true := by
        simp [hrel]
      rw [hdec] at hsym
      simp [writeElfM, hsym, hchk, hrel, hdec, hsec]

/-- A data section whose declared size disagrees with its buffered data
length, for the C9 witness. -/
def c9Sec : SectionM := ⟨".data", .Data, 0, 4, [], []⟩

/-- The C9 witness object. -/
def c9Obj : ObjInfoM := ⟨.Executable, "", [c9Sec], []⟩

/-- C9 witness: on the concrete mismatching object the emitted-region
trace is empty. -/
theorem c9_witness : (writeElfM c9Obj).2 = [] := by
  obtain ⟨e, he⟩ := c9_size_mismatch_no_output c9Obj
    ⟨c9Sec, by decide, by decide, by decide⟩
  rw [he]

/-- A code section with a nonzero load address, for the C10 witness. -/
def c10Sec : SectionM := ⟨".text", .Code, 4, 0, [], []⟩

/-- The C10 witness object: relocatable, passing the size checks. -/
def c10Obj : ObjInfoM := ⟨.Relocatable, "", [c10Sec], []⟩

/-- C10 witness: writing the concrete relocatable object with a
nonzero-address code section does not succeed. -/
theorem c10_witness : (writeElfM c10Obj).1 ≠ .ok () := by
  obtain ⟨e, he⟩ := c10_relocatable_nonzero_address_fails c10Obj (by decide)
    ⟨c10Sec, by decide, by decide, by decide⟩
  rw [he]
  simp
